import Mathlib

/-!
Verification of the skhron in-memory TTL store.

This file gives a shallow embedding of the `Skhron[V]` store: the map, the
expiry queue (a binary min-heap driven by Go's `container/heap` algorithms),
the `Put`/`PutTTL`/`Get`/`Delete`/`CleanUp`/`PeriodicCleanup` operations and
the snapshot save/load paths, together with proofs of the specified
properties.

Modelling conventions:
- the backing map (`shrinking-map`) is modelled extensionally as a function
  `String → Option V` (the shrink limit is a performance knob with no
  observable semantics and is not modelled);
- `time.Time` values and `time.Duration` values are modelled as `Int`;
  `time.Time.Before` is `<`; `time.Now()` is passed in explicitly as a `now`
  argument;
- loops are written with an explicit fuel argument so that every definition
  is structurally recursive and computable; each wrapper instantiates the
  fuel with a bound (established by the loop's variant) that lets the loop
  run to completion.
-/

/-- An `expireItem`: a queue record holding a key and its expiration time. -/
structure ExpireItem where
  key : String
  exp : Int
deriving DecidableEq, Repr

/-- Value produced by out-of-range queue indexing; all in-range reasoning
carries explicit bounds, so it is never observed. -/
def defaultItem : ExpireItem := ⟨"", 0⟩

/-- Indexing into the queue slice. -/
def qget (q : List ExpireItem) (i : Nat) : ExpireItem := (q[i]?).getD defaultItem

/-- `expireQueue.Less i j`: `q[i].Exp.Before(q[j].Exp)` (strict). -/
def qless (q : List ExpireItem) (i j : Nat) : Bool :=
  decide ((qget q i).exp < (qget q j).exp)

/-- `expireQueue.Swap i j`. -/
def qswap (q : List ExpireItem) (i j : Nat) : List ExpireItem :=
  (q.set i (qget q j)).set j (qget q i)

/-- Child selection of Go `container/heap.down`: the smaller of the two
children of `i` below the bound `n` (callers ensure `2*i+1 < n`). -/
def minChild (q : List ExpireItem) (i n : Nat) : Nat :=
  if 2*i+2 < n ∧ qless q (2*i+2) (2*i+1) then 2*i+2 else 2*i+1

/-- Go `container/heap.up`, fueled: sift the element at index `j` towards the
root while it is strictly smaller than its parent. Fuel `≥ j` runs the loop
to completion. -/
def heapUpF : Nat → List ExpireItem → Nat → List ExpireItem
  | 0, q, _ => q
  | f+1, q, j =>
    if j = 0 then q
    else if qless q j ((j-1)/2) then heapUpF f (qswap q ((j-1)/2) j) ((j-1)/2)
    else q

/-- Go `container/heap.up`. -/
def heapUp (q : List ExpireItem) (j : Nat) : List ExpireItem := heapUpF j q j

/-- Go `container/heap.down`, fueled: sift the element at index `i` downwards
inside the prefix of length `n`, swapping with the smaller child while that
child is strictly smaller. Returns the final index as well (Go's `down`
reports whether the element moved). Fuel `≥ n - i` runs the loop to
completion. -/
def heapDownF : Nat → List ExpireItem → Nat → Nat → List ExpireItem × Nat
  | 0, q, i, _ => (q, i)
  | f+1, q, i, n =>
    if 2*i+1 < n then
      let j := minChild q i n
      if qless q j i then heapDownF f (qswap q i j) j n else (q, i)
    else (q, i)

/-- Go `container/heap.down` on the prefix of length `n`. -/
def heapDown (q : List ExpireItem) (i n : Nat) : List ExpireItem × Nat :=
  heapDownF n q i n

/-- The loop of Go `container/heap.Init`: sift down the internal nodes,
last one first (`heapInitLoop q (n/2)` performs `down` at `n/2 - 1, …, 0`). -/
def heapInitLoop : List ExpireItem → Nat → List ExpireItem
  | q, 0 => q
  | q, i+1 => heapInitLoop (heapDown q i q.length).1 i

/-- Go `container/heap.Init`. -/
def heapInit (q : List ExpireItem) : List ExpireItem :=
  heapInitLoop q (q.length / 2)

/-- Go `container/heap.Push` on the expire queue: the slice `Push` appends,
then the new last element is sifted up. -/
def heapPush (q : List ExpireItem) (x : ExpireItem) : List ExpireItem :=
  heapUp (q ++ [x]) q.length

/-- Go `container/heap.Pop` on the expire queue: swap the root with the last
element, sift the new root down inside the shortened prefix, then the slice
`Pop` removes and returns the last element (`none` only on an empty queue,
where Go would panic; all callers guard `Len() > 0`). -/
def heapPop (q : List ExpireItem) : List ExpireItem × Option ExpireItem :=
  if q.length = 0 then (q, none)
  else
    let n := q.length - 1
    let q2 := (heapDown (qswap q 0 n) 0 n).1
    (q2.take n, q2[n]?)

/-- Go `container/heap.Fix`: sift down at `i`; if the element did not move,
sift it up instead. -/
def heapFix (q : List ExpireItem) (i : Nat) : List ExpireItem :=
  let r := heapDown q i q.length
  if i < r.2 then r.1 else heapUp r.1 i

/-- The `Skhron[V]` store: the data map and the expiry queue. -/
structure Skhron (V : Type) where
  data : String → Option V
  ttlq : List ExpireItem

/-- `skhron.New`: empty map, empty queue, `heap.Init` on the fresh queue. -/
def Skhron.new (V : Type) : Skhron V := ⟨fun _ => none, heapInit []⟩

/-- `Data.Set` of the backing map. -/
def mapSet {V : Type} (d : String → Option V) (k : String) (v : V) :
    String → Option V :=
  fun x => if x = k then some v else d x

/-- `Data.Delete` of the backing map (a no-op on an absent key). -/
def mapDel {V : Type} (d : String → Option V) (k : String) :
    String → Option V :=
  fun x => if x = k then none else d x

/-- `Skhron.Put`: plain upsert into the map; the queue is untouched and the
returned error is always `nil`. -/
def Skhron.put {V : Type} (s : Skhron V) (k : String) (v : V) : Skhron V :=
  { s with data := mapSet s.data k v }

/-- The scan of `Skhron.PutTTL`: `index` after the loop
`for i := 0; i < Len; i++ { if q[i].Key == key { index = i } }` —
the last index whose key matches, if any. -/
def findLastIndex (q : List ExpireItem) (k : String) : Option Nat :=
  (List.range q.length).foldl
    (fun acc i => if (qget q i).key = k then some i else acc) none

/-- The in-place expiry update performed by `Skhron.PutTTL`'s scan: every
record whose key matches gets `Exp = now + ttl`. -/
def updateKeyExp (q : List ExpireItem) (k : String) (t : Int) :
    List ExpireItem :=
  q.map (fun it => if it.key = k then ⟨it.key, t⟩ else it)

/-- `Skhron.PutTTL`: set the map entry; scan the queue for an existing record
with this key, updating its expiry in place; then `heap.Fix` at the found
index, or `heap.Push` a fresh record if none was found. -/
def Skhron.putTTL {V : Type} (s : Skhron V) (k : String) (v : V)
    (ttl now : Int) : Skhron V :=
  let d := mapSet s.data k v
  match findLastIndex s.ttlq k with
  | none => ⟨d, heapPush s.ttlq ⟨k, now + ttl⟩⟩
  | some i => ⟨d, heapFix (updateKeyExp s.ttlq k (now + ttl)) i⟩

/-- `Skhron.Get`: map lookup only; an absent key produces the error
`"no such key: " + key`. -/
def Skhron.get {V : Type} (s : Skhron V) (k : String) : Except String V :=
  match s.data k with
  | some v => .ok v
  | none => .error ("no such key: " ++ k)

/-- `Skhron.Delete`: remove the map entry (the queue is untouched) and return
a `nil` error. -/
def Skhron.delete {V : Type} (s : Skhron V) (k : String) :
    Skhron V × Option String :=
  ({ s with data := mapDel s.data k }, none)

/-- The loop of `Skhron.CleanUp`, fueled (fuel `≥` queue length runs it to
completion): while the queue is non-empty, `heap.Pop` a record; if it expired
strictly before `now`, delete its key from the map and continue; otherwise
`heap.Push` it back and stop. -/
def cleanUpF {V : Type} :
    Nat → (String → Option V) → List ExpireItem → Int →
    (String → Option V) × List ExpireItem
  | 0, d, q, _ => (d, q)
  | f+1, d, q, now =>
    if q.length = 0 then (d, q)
    else
      let p := heapPop q
      match p.2 with
      | none => (d, p.1)
      | some it =>
        if it.exp < now then cleanUpF f (mapDel d it.key) p.1 now
        else (d, heapPush p.1 it)

/-- `Skhron.CleanUp` at clock value `now`. -/
def Skhron.cleanUp {V : Type} (s : Skhron V) (now : Int) : Skhron V :=
  let r := cleanUpF s.ttlq.length s.data s.ttlq now
  ⟨r.1, r.2⟩

theorem qget_eq_getElem (q : List ExpireItem) (i : Nat) (h : i < q.length) :
    qget q i = q[i] := by
  simp [qget, List.getElem?_eq_getElem h]

theorem qswap_length (q : List ExpireItem) (i j : Nat) :
    (qswap q i j).length = q.length := by
  simp [qswap]

theorem qget_qswap_fst (q : List ExpireItem) {i j : Nat}
    (hi : i < q.length) (hj : j < q.length) :
    qget (qswap q i j) i = qget q j := by
  by_cases hij : j = i
  · subst hij
    simp [qswap, qget, List.getElem?_set, hj]
  · simp [qswap, qget, List.getElem?_set, hij, hi]

theorem qget_qswap_snd (q : List ExpireItem) {i j : Nat}
    (hj : j < q.length) : qget (qswap q i j) j = qget q i := by
  simp [qswap, qget, List.getElem?_set, hj]

theorem qget_qswap_other (q : List ExpireItem) {i j k : Nat}
    (hki : k ≠ i) (hkj : k ≠ j) : qget (qswap q i j) k = qget q k := by
  simp [qswap, qget, List.getElem?_set, Ne.symm hki, Ne.symm hkj]

theorem getElem?_qswap_other (q : List ExpireItem) {i j k : Nat}
    (hki : k ≠ i) (hkj : k ≠ j) : (qswap q i j)[k]? = q[k]? := by
  unfold qswap
  rw [List.getElem?_set_ne (Ne.symm hkj), List.getElem?_set_ne (Ne.symm hki)]

theorem count_qswap (q : List ExpireItem) {i j : Nat}
    (hi : i < q.length) (hj : j < q.length) (x : ExpireItem) :
    (qswap q i j).count x = q.count x := by
  have hgi : qget q i = q[i] := qget_eq_getElem q i hi
  have hgj : qget q j = q[j] := qget_eq_getElem q j hj
  have hj' : j < (q.set i (qget q j)).length := by simpa using hj
  have hset : (q.set i (qget q j))[j] = qget q j := by
    rw [List.getElem_set]
    split <;> simp [hgj]
  unfold qswap
  rw [List.count_set _ _ _ _ hj', List.count_set _ _ _ _ hi, hset, hgi]
  by_cases h1 : (q[i] == x) = true
  · have hx : x ∈ q := by
      have hm : q[i] ∈ q := List.getElem_mem hi
      rwa [eq_of_beq h1] at hm
    have hpos : 0 < q.count x := List.count_pos_iff.mpr hx
    by_cases h2 : ((qget q j) == x) = true <;> simp [h1, h2] <;> omega
  · by_cases h2 : ((qget q j) == x) = true <;> simp [h1, h2] <;> omega

theorem minChild_bounds (q : List ExpireItem) {i n : Nat} (h : 2*i+1 < n) :
    i < minChild q i n ∧ minChild q i n < n := by
  unfold minChild
  split <;> omega

theorem heapUpF_length (f : Nat) (q : List ExpireItem) (j : Nat) :
    (heapUpF f q j).length = q.length := by
  induction f generalizing q j with
  | zero => rfl
  | succ f ih =>
    simp only [heapUpF]
    split
    · rfl
    · split
      · rw [ih, qswap_length]
      · rfl

theorem heapUpF_count (f : Nat) (q : List ExpireItem) (j : Nat)
    (hj : j < q.length) (x : ExpireItem) :
    (heapUpF f q j).count x = q.count x := by
  induction f generalizing q j with
  | zero => rfl
  | succ f ih =>
    simp only [heapUpF]
    split
    · rfl
    · split
      · rename_i hj0 _
        have hp : (j-1)/2 < j := by omega
        rw [ih _ _ (by rw [qswap_length]; omega),
          count_qswap q (by omega) hj]
      · rfl

theorem heapDownF_length (f : Nat) (q : List ExpireItem) (i n : Nat) :
    (heapDownF f q i n).1.length = q.length := by
  induction f generalizing q i with
  | zero => rfl
  | succ f ih =>
    simp only [heapDownF]
    split
    · split
      · rw [ih, qswap_length]
      · rfl
    · rfl

theorem heapDownF_count (f : Nat) (q : List ExpireItem) (i n : Nat)
    (hn : n ≤ q.length) (x : ExpireItem) :
    (heapDownF f q i n).1.count x = q.count x := by
  induction f generalizing q i with
  | zero => rfl
  | succ f ih =>
    simp only [heapDownF]
    split
    · split
      · rename_i hc _
        have hb := minChild_bounds q hc
        rw [ih _ _ (by rw [qswap_length]; exact hn),
          count_qswap q (by omega) (by omega)]
      · rfl
    · rfl

theorem heapDownF_snd_ge (f : Nat) (q : List ExpireItem) (i n : Nat) :
    i ≤ (heapDownF f q i n).2 := by
  induction f generalizing q i with
  | zero => exact Nat.le_refl i
  | succ f ih =>
    simp only [heapDownF]
    split
    · split
      · rename_i hc _
        have hb := minChild_bounds q hc
        exact Nat.le_trans (Nat.le_of_lt hb.1) (ih _ _)
      · exact Nat.le_refl i
    · exact Nat.le_refl i

theorem heapDownF_no_move (f : Nat) (q : List ExpireItem) (i n : Nat)
    (h : (heapDownF f q i n).2 = i) : (heapDownF f q i n).1 = q := by
  cases f with
  | zero => rfl
  | succ f =>
    by_cases h1 : 2*i+1 < n
    · by_cases h2 : qless q (minChild q i n) i = true
      · exfalso
        have hb := minChild_bounds q h1
        have hge :=
          heapDownF_snd_ge f (qswap q i (minChild q i n)) (minChild q i n) n
        simp only [heapDownF, if_pos h1, if_pos h2] at h
        omega
      · simp only [heapDownF, if_pos h1, if_neg h2]
    · simp only [heapDownF, if_neg h1]

theorem heapDownF_getElem_ge (f : Nat) (q : List ExpireItem) (i n k : Nat)
    (hk : n ≤ k) : (heapDownF f q i n).1[k]? = q[k]? := by
  induction f generalizing q i with
  | zero => rfl
  | succ f ih =>
    simp only [heapDownF]
    split
    · split
      · rename_i hc _
        have hb := minChild_bounds q hc
        rw [ih, getElem?_qswap_other q (by omega) (by omega)]
      · rfl
    · rfl

/-- `j` is a child index of `i` in the implicit binary tree. -/
def isChildIdx (i j : Nat) : Prop := j = 2*i+1 ∨ j = 2*i+2

/-- The binary min-heap property on the prefix of length `n`: every element
is at least its parent. -/
def HeapN (q : List ExpireItem) (n : Nat) : Prop :=
  ∀ j, j < n → 1 ≤ j → (qget q ((j-1)/2)).exp ≤ (qget q j).exp

/-- The heap property of the whole queue. -/
def IsHeap (q : List ExpireItem) : Prop := HeapN q q.length

instance (q : List ExpireItem) (n : Nat) : Decidable (HeapN q n) :=
  Nat.decidableBallLT n fun j _ => _

instance (q : List ExpireItem) : Decidable (IsHeap q) :=
  inferInstanceAs (Decidable (HeapN q q.length))

theorem heap_edge {q : List ExpireItem} {n : Nat} (h : HeapN q n) {i j : Nat}
    (hc : isChildIdx i j) (hj : j < n) :
    (qget q i).exp ≤ (qget q j).exp := by
  have h1 : 1 ≤ j := by rcases hc with h'|h' <;> omega
  have h2 : (j-1)/2 = i := by rcases hc with h'|h' <;> omega
  have := h j hj h1
  rwa [h2] at this

theorem heapN_of_edges {q : List ExpireItem} {n : Nat}
    (h : ∀ a c, isChildIdx a c → c < n → (qget q a).exp ≤ (qget q c).exp) :
    HeapN q n := by
  intro j hj h1
  apply h _ _ _ hj
  unfold isChildIdx
  omega

/-- In a heap prefix, the root is a lower bound for every member. -/
theorem heapN_root_min {q : List ExpireItem} {n : Nat} (h : HeapN q n) :
    ∀ j, j < n → (qget q 0).exp ≤ (qget q j).exp := by
  intro j
  induction j using Nat.strong_induction_on with
  | _ j ih =>
    intro hj
    cases Nat.eq_zero_or_pos j with
    | inl h0 => simp [h0]
    | inr h1 =>
      have hp := ih ((j-1)/2) (by omega) (by omega)
      exact le_trans hp (h j hj h1)

/-- Invariant of the sift-up loop with the hole at `j`: every parent-child
edge except the one into `j` is ordered, and the parent of `j` is already a
lower bound for the children of `j`. -/
def UpInv (q : List ExpireItem) (n j : Nat) : Prop :=
  (∀ a c, isChildIdx a c → c < n → c ≠ j →
    (qget q a).exp ≤ (qget q c).exp) ∧
  (∀ c, isChildIdx j c → c < n → 1 ≤ j →
    (qget q ((j-1)/2)).exp ≤ (qget q c).exp)

theorem upInv_step (q : List ExpireItem) (n j : Nat) (hn : n = q.length)
    (hj : j < n) (hj0 : j ≠ 0) (hless : qless q j ((j-1)/2) = true)
    (hinv : UpInv q n j) : UpInv (qswap q ((j-1)/2) j) n ((j-1)/2) := by
  set i := (j-1)/2 with hi
  have hchild : isChildIdx i j := by unfold isChildIdx; omega
  have hiln : i < n := by omega
  have hswl : ∀ k, k ≠ i → k ≠ j → qget (qswap q i j) k = qget q k :=
    fun k h1 h2 => qget_qswap_other q h1 h2
  have hswi : qget (qswap q i j) i = qget q j :=
    qget_qswap_fst q (by omega) (by omega)
  have hswj : qget (qswap q i j) j = qget q i := qget_qswap_snd q (by omega)
  have hlt : (qget q j).exp < (qget q i).exp := by simpa [qless] using hless
  constructor
  · intro a c hc hcn hci
    by_cases hcj : c = j
    · subst hcj
      have ha : a = i := by rcases hc with h|h <;> omega
      subst ha
      rw [hswi, hswj]
      exact le_of_lt hlt
    · by_cases haj : a = j
      · subst haj
        rw [hswj, hswl c hci hcj]
        exact hinv.2 c hc hcn (by omega)
      · by_cases hai : a = i
        · subst hai
          rw [hswi, hswl c hci hcj]
          exact le_trans (le_of_lt hlt) (hinv.1 i c hc hcn hcj)
        · rw [hswl a hai haj, hswl c hci hcj]
          exact hinv.1 a c hc hcn hcj
  · intro c hc hcn h1i
    have hpi : (i-1)/2 ≠ i := by omega
    have hpj : (i-1)/2 ≠ j := by omega
    rw [hswl _ hpi hpj]
    have hci : c ≠ i := by rcases hc with h|h <;> omega
    by_cases hcj : c = j
    · subst hcj
      rw [hswj]
      exact hinv.1 _ i (by unfold isChildIdx; omega) hiln (by omega)
    · rw [hswl c hci hcj]
      exact le_trans (hinv.1 _ i (by unfold isChildIdx; omega) hiln (by omega))
        (hinv.1 i c hc hcn hcj)

theorem upF_correct (f : Nat) (q : List ExpireItem) (n j : Nat)
    (hf : j ≤ f) (hn : n = q.length) (hj : j < n) (hinv : UpInv q n j) :
    HeapN (heapUpF f q j) n := by
  induction f generalizing q j with
  | zero =>
    have hj0 : j = 0 := by omega
    subst hj0
    apply heapN_of_edges
    intro a c hc hcn
    exact hinv.1 a c hc hcn (by rcases hc with h|h <;> omega)
  | succ f ih =>
    simp only [heapUpF]
    by_cases hj0 : j = 0
    · rw [if_pos hj0]
      subst hj0
      apply heapN_of_edges
      intro a c hc hcn
      exact hinv.1 a c hc hcn (by rcases hc with h|h <;> omega)
    · rw [if_neg hj0]
      by_cases hless : qless q j ((j-1)/2) = true
      · rw [if_pos hless]
        exact ih (qswap q ((j-1)/2) j) ((j-1)/2) (by omega)
          (by rw [qswap_length]; exact hn) (by omega)
          (upInv_step q n j hn hj hj0 hless hinv)
      · rw [if_neg hless]
        apply heapN_of_edges
        intro a c hc hcn
        by_cases hcj : c = j
        · subst hcj
          have ha : a = (c-1)/2 := by rcases hc with h|h <;> omega
          subst ha
          have := (not_lt.mp (by simpa [qless] using hless))
          exact this
        · exact hinv.1 a c hc hcn hcj

theorem minChild_isChild (q : List ExpireItem) (i n : Nat) :
    isChildIdx i (minChild q i n) := by
  unfold minChild isChildIdx
  split
  · right; rfl
  · left; rfl

theorem minChild_min (q : List ExpireItem) {i n : Nat} (h : 2*i+1 < n) :
    ∀ c, isChildIdx i c → c < n →
      (qget q (minChild q i n)).exp ≤ (qget q c).exp := by
  intro c hc hcn
  unfold minChild
  rcases hc with h1|h2
  · subst h1
    split
    · rename_i hcond
      exact le_of_lt (by simpa [qless] using hcond.2)
    · exact le_refl _
  · subst h2
    split
    · exact le_refl _
    · rename_i hcond
      have : ¬ qless q (2*i+2) (2*i+1) = true := fun hq => hcond ⟨hcn, hq⟩
      exact not_lt.mp (by simpa [qless] using this)

/-- Invariant of the sift-down loop started at `i0`, with the hole at `i`:
every edge avoiding the hole is ordered; the parent of the hole bounds the
hole's children from below; and once the hole has moved, the edge into the
hole is ordered as well. -/
def DownInv (q : List ExpireItem) (n i i0 : Nat) : Prop :=
  (∀ a c, isChildIdx a c → c < n → a ≠ i → c ≠ i →
    (qget q a).exp ≤ (qget q c).exp) ∧
  (∀ c, isChildIdx i c → c < n → 1 ≤ i →
    (qget q ((i-1)/2)).exp ≤ (qget q c).exp) ∧
  (i ≠ i0 → 1 ≤ i → (qget q ((i-1)/2)).exp ≤ (qget q i).exp)

theorem downInv_step (q : List ExpireItem) (n i i0 : Nat) (hn : n ≤ q.length)
    (hc1 : 2*i+1 < n) (hless : qless q (minChild q i n) i = true)
    (hinv : DownInv q n i i0) :
    DownInv (qswap q i (minChild q i n)) n (minChild q i n) i0 := by
  set j := minChild q i n with hjdef
  have hb := minChild_bounds q hc1
  have hchild : isChildIdx i j := minChild_isChild q i n
  have hswl : ∀ k, k ≠ i → k ≠ j → qget (qswap q i j) k = qget q k :=
    fun k h1 h2 => qget_qswap_other q h1 h2
  have hswi : qget (qswap q i j) i = qget q j :=
    qget_qswap_fst q (by omega) (by omega)
  have hswj : qget (qswap q i j) j = qget q i := qget_qswap_snd q (by omega)
  have hlt : (qget q j).exp < (qget q i).exp := by simpa [qless] using hless
  have hmin := minChild_min q hc1
  refine ⟨?_, ?_, ?_⟩
  · intro a c hc hcn haj hcj
    by_cases hci : c = i
    · subst hci
      have h1i : 1 ≤ c := by rcases hc with h|h <;> omega
      have ha : a = (c-1)/2 := by rcases hc with h|h <;> omega
      subst ha
      rw [hswi, hswl _ (by omega) (by omega)]
      exact hinv.2.1 j hchild (by omega) h1i
    · by_cases hai : a = i
      · subst hai
        rw [hswi, hswl c hci hcj]
        exact hmin c hc hcn
      · rw [hswl a hai haj, hswl c hci hcj]
        exact hinv.1 a c hc hcn hai hci
  · intro c hc hcn _
    have hpj : (j-1)/2 = i := by rcases hchild with h|h <;> omega
    rw [hpj, hswi]
    have hcj : c ≠ j := by rcases hc with h|h <;> omega
    have hci : c ≠ i := by rcases hc with h|h <;> omega
    rw [hswl c hci hcj]
    exact hinv.1 j c hc hcn (by omega) hci
  · intro _ _
    have hpj : (j-1)/2 = i := by rcases hchild with h|h <;> omega
    rw [hpj, hswi, hswj]
    exact le_of_lt hlt

theorem downF_correct_ne (f : Nat) (q : List ExpireItem) (n i i0 : Nat)
    (hf : n ≤ f + i) (hn : n ≤ q.length) (hne : i ≠ i0) (hge : i0 ≤ i)
    (hinv : DownInv q n i i0) : HeapN (heapDownF f q i n).1 n := by
  induction f generalizing q i with
  | zero =>
    apply heapN_of_edges
    intro a c hc hcn
    have hci : c ≠ i := by omega
    have hai : a ≠ i := by rcases hc with h|h <;> omega
    exact hinv.1 a c hc hcn hai hci
  | succ f ih =>
    simp only [heapDownF]
    by_cases h1 : 2*i+1 < n
    · rw [if_pos h1]
      by_cases h2 : qless q (minChild q i n) i = true
      · rw [if_pos h2]
        have hb := minChild_bounds q h1
        exact ih (qswap q i (minChild q i n)) (minChild q i n)
          (by omega) (by rw [qswap_length]; exact hn) (by omega) (by omega)
          (downInv_step q n i i0 hn h1 h2 hinv)
      · rw [if_neg h2]
        apply heapN_of_edges
        intro a c hc hcn
        by_cases hci : c = i
        · subst hci
          have ha : a = (c-1)/2 := by rcases hc with h|h <;> omega
          subst ha
          exact hinv.2.2 hne (by rcases hc with h|h <;> omega)
        · by_cases hai : a = i
          · subst hai
            have hle : (qget q a).exp ≤ (qget q (minChild q a n)).exp :=
              not_lt.mp (by simpa [qless] using h2)
            exact le_trans hle (minChild_min q h1 c hc hcn)
          · exact hinv.1 a c hc hcn hai hci
    · rw [if_neg h1]
      apply heapN_of_edges
      intro a c hc hcn
      by_cases hci : c = i
      · subst hci
        have ha : a = (c-1)/2 := by rcases hc with h|h <;> omega
        subst ha
        exact hinv.2.2 hne (by rcases hc with h|h <;> omega)
      · by_cases hai : a = i
        · exfalso
          subst hai
          rcases hc with h|h <;> omega
        · exact hinv.1 a c hc hcn hai hci

theorem downF_correct_top (f : Nat) (q : List ExpireItem) (n i0 : Nat)
    (hf : n ≤ f + i0) (hn : n ≤ q.length) (hinv : DownInv q n i0 i0) :
    (i0 < (heapDownF f q i0 n).2 → HeapN (heapDownF f q i0 n).1 n) ∧
    ((heapDownF f q i0 n).2 = i0 →
      (heapDownF f q i0 n).1 = q ∧
      (∀ a c, isChildIdx a c → c < n → c ≠ i0 →
        (qget q a).exp ≤ (qget q c).exp) ∧
      (∀ c, isChildIdx i0 c → c < n → (qget q i0).exp ≤ (qget q c).exp)) := by
  cases f with
  | zero =>
    constructor
    · intro h
      exact absurd h (by simp [heapDownF])
    · intro _
      refine ⟨rfl, ?_, ?_⟩
      · intro a c hc hcn _
        have hai : a ≠ i0 := by rcases hc with h|h <;> omega
        have hci : c ≠ i0 := by omega
        exact hinv.1 a c hc hcn hai hci
      · intro c hc hcn
        exfalso
        rcases hc with h|h <;> omega
  | succ f =>
    by_cases h1 : 2*i0+1 < n
    · by_cases h2 : qless q (minChild q i0 n) i0 = true
      · have hb := minChild_bounds q h1
        have hheap : HeapN (heapDownF (f+1) q i0 n).1 n := by
          simp only [heapDownF, if_pos h1, if_pos h2]
          exact downF_correct_ne f (qswap q i0 (minChild q i0 n))
            n (minChild q i0 n) i0 (by omega)
            (by rw [qswap_length]; exact hn) (by omega) (by omega)
            (downInv_step q n i0 i0 hn h1 h2 hinv)
        have hgt : i0 < (heapDownF (f+1) q i0 n).2 := by
          simp only [heapDownF, if_pos h1, if_pos h2]
          have := heapDownF_snd_ge f (qswap q i0 (minChild q i0 n))
            (minChild q i0 n) n
          omega
        exact ⟨fun _ => hheap, fun h => absurd h (by omega)⟩
      · simp only [heapDownF, if_pos h1, if_neg h2]
        constructor
        · intro h
          exact absurd h (by simp)
        · intro _
          refine ⟨trivial, ?_, ?_⟩
          · intro a c hc hcn hci
            by_cases hai : a = i0
            · subst hai
              have hle : (qget q a).exp ≤ (qget q (minChild q a n)).exp :=
                not_lt.mp (by simpa [qless] using h2)
              exact le_trans hle (minChild_min q h1 c hc hcn)
            · exact hinv.1 a c hc hcn hai hci
          · intro c hc hcn
            have hle : (qget q i0).exp ≤ (qget q (minChild q i0 n)).exp :=
              not_lt.mp (by simpa [qless] using h2)
            exact le_trans hle (minChild_min q h1 c hc hcn)
    · simp only [heapDownF, if_neg h1]
      constructor
      · intro h
        exact absurd h (by simp)
      · intro _
        refine ⟨trivial, ?_, ?_⟩
        · intro a c hc hcn hci
          by_cases hai : a = i0
          · exfalso
            subst hai
            rcases hc with h|h <;> omega
          · exact hinv.1 a c hc hcn hai hci
        · intro c hc hcn
          exfalso
          rcases hc with h|h <;> omega

theorem IsHeap.of_heapN {q : List ExpireItem} {n : Nat} (h : HeapN q n)
    (hl : q.length = n) : IsHeap q := by
  unfold IsHeap
  rw [hl]
  exact h

theorem qget_append_left (q t : List ExpireItem) {k : Nat}
    (h : k < q.length) : qget (q ++ t) k = qget q k := by
  simp [qget, List.getElem?_append_left h]

theorem heapPush_length (q : List ExpireItem) (x : ExpireItem) :
    (heapPush q x).length = q.length + 1 := by
  unfold heapPush heapUp
  rw [heapUpF_length]
  simp

theorem heapPush_isHeap {q : List ExpireItem} (x : ExpireItem)
    (h : IsHeap q) : IsHeap (heapPush q x) := by
  have hup : HeapN (heapUpF q.length (q ++ [x]) q.length) (q.length + 1) := by
    apply upF_correct q.length (q ++ [x]) (q.length + 1) q.length
      (le_refl _) (by simp) (by omega)
    constructor
    · intro a c hc hcn hcj
      have hcl : c < q.length := by omega
      have hal : a < q.length := by rcases hc with h'|h' <;> omega
      rw [qget_append_left _ _ hal, qget_append_left _ _ hcl]
      exact heap_edge h hc hcl
    · intro c hc hcn _
      exfalso
      rcases hc with h'|h' <;> omega
  have hres : IsHeap (heapUpF q.length (q ++ [x]) q.length) :=
    IsHeap.of_heapN hup (by rw [heapUpF_length]; simp)
  exact hres

theorem heapPush_count (q : List ExpireItem) (x y : ExpireItem) :
    (heapPush q x).count y = q.count y + (if x = y then 1 else 0) := by
  unfold heapPush heapUp
  rw [heapUpF_count _ _ _ (by simp), List.count_append]
  by_cases hxy : x = y <;> simp [List.count_singleton, hxy]

theorem heapPop_fst_def (q : List ExpireItem) (h : ¬ q.length = 0) :
    (heapPop q).1 =
      ((heapDown (qswap q 0 (q.length-1)) 0 (q.length-1)).1).take
        (q.length-1) := by
  unfold heapPop
  rw [if_neg h]

theorem heapPop_last (q : List ExpireItem) (h : ¬ q.length = 0) :
    ((heapDown (qswap q 0 (q.length-1)) 0 (q.length-1)).1)[q.length-1]?
      = some (qget q 0) := by
  unfold heapDown
  rw [heapDownF_getElem_ge _ _ _ _ _ (le_refl _)]
  unfold qswap
  rw [List.getElem?_set_self (by simp; omega)]

theorem heapPop_root (q : List ExpireItem) (h : ¬ q.length = 0) :
    (heapPop q).2 = some (qget q 0) := by
  unfold heapPop
  rw [if_neg h]
  exact heapPop_last q h

theorem heapPop_length (q : List ExpireItem) (h : ¬ q.length = 0) :
    (heapPop q).1.length = q.length - 1 := by
  rw [heapPop_fst_def q h]
  unfold heapDown
  rw [List.length_take, heapDownF_length, qswap_length]
  omega

theorem heapPop_count (q : List ExpireItem) (h : ¬ q.length = 0)
    (y : ExpireItem) :
    (heapPop q).1.count y + (if qget q 0 = y then 1 else 0) = q.count y := by
  rw [heapPop_fst_def q h]
  have hlen2 : ((heapDown (qswap q 0 (q.length-1)) 0 (q.length-1)).1).length
      = q.length := by
    unfold heapDown
    rw [heapDownF_length, qswap_length]
  have hcnt2 : ((heapDown (qswap q 0 (q.length-1)) 0 (q.length-1)).1).count y
      = q.count y := by
    unfold heapDown
    rw [heapDownF_count _ _ _ _ (by rw [qswap_length]; omega),
      count_qswap q (by omega) (by omega)]
  set q2 := (heapDown (qswap q 0 (q.length-1)) 0 (q.length-1)).1 with hq2
  have hnlt : q.length - 1 < q2.length := by omega
  have hgl : q2[q.length-1] = qget q 0 := by
    have h1 : q2[q.length-1]? = some (qget q 0) := heapPop_last q h
    rw [List.getElem?_eq_getElem hnlt] at h1
    exact Option.some.inj h1
  have hd : q2.drop (q.length-1) = [qget q 0] := by
    rw [List.drop_eq_getElem_cons hnlt, hgl,
      List.drop_eq_nil_of_le (by omega)]
  have hsplit := List.take_append_drop (q.length-1) q2
  have := congrArg (List.count y) hsplit
  rw [List.count_append, hd] at this
  rw [← hcnt2, ← this]
  by_cases hxy : qget q 0 = y <;> simp [List.count_singleton, hxy]

theorem heapPop_isHeap {q : List ExpireItem} (h : IsHeap q) :
    IsHeap (heapPop q).1 := by
  by_cases h0 : q.length = 0
  · unfold heapPop
    rw [if_pos h0]
    exact h
  · rw [heapPop_fst_def q h0]
    have hinv : DownInv (qswap q 0 (q.length-1)) (q.length-1) 0 0 := by
      refine ⟨?_, ?_, ?_⟩
      · intro a c hc hcn hai hci
        have hac : a < c := by rcases hc with h'|h' <;> omega
        rw [qget_qswap_other q hai (by omega), qget_qswap_other q hci (by omega)]
        exact heap_edge h hc (by omega)
      · intro c hc hcn h1
        omega
      · intro hne _
        exact absurd rfl hne
    have htop := downF_correct_top (q.length-1) (qswap q 0 (q.length-1))
      (q.length-1) 0 (by omega) (by rw [qswap_length]; omega) hinv
    have hq2 : HeapN (heapDownF (q.length-1) (qswap q 0 (q.length-1)) 0
        (q.length-1)).1 (q.length-1) := by
      rcases Nat.eq_zero_or_pos ((heapDownF (q.length-1) (qswap q 0 (q.length-1))
          0 (q.length-1)).2) with h'|h'
      · obtain ⟨heq, hpart, hchild⟩ := htop.2 h'
        rw [heq]
        apply heapN_of_edges
        intro a c hc hcn
        by_cases hai : a = 0
        · subst hai
          exact hchild c hc hcn
        · exact hpart a c hc hcn (by rcases hc with h''|h'' <;> omega)
      · exact htop.1 h'
    apply IsHeap.of_heapN (n := q.length - 1)
    · intro j hj h1
      have hget : ∀ k, k < q.length - 1 →
          qget ((heapDownF (q.length-1) (qswap q 0 (q.length-1)) 0
            (q.length-1)).1.take (q.length-1)) k
          = qget (heapDownF (q.length-1) (qswap q 0 (q.length-1)) 0
            (q.length-1)).1 k := by
        intro k hk
        simp [qget, List.getElem?_take, hk]
      unfold heapDown
      rw [hget j hj, hget _ (by omega)]
      exact hq2 j hj h1
    · unfold heapDown
      rw [List.length_take, heapDownF_length, qswap_length]
      omega

theorem heapFix_length (q : List ExpireItem) (i : Nat) :
    (heapFix q i).length = q.length := by
  unfold heapFix heapDown heapUp
  simp only []
  split
  · rw [heapDownF_length]
  · rw [heapUpF_length, heapDownF_length]

theorem heapFix_count (q : List ExpireItem) (i : Nat) (hi : i < q.length)
    (y : ExpireItem) : (heapFix q i).count y = q.count y := by
  unfold heapFix heapDown heapUp
  simp only []
  split
  · rw [heapDownF_count _ _ _ _ (le_refl _)]
  · rw [heapUpF_count _ _ _ (by rw [heapDownF_length]; exact hi),
      heapDownF_count _ _ _ _ (le_refl _)]

theorem heapFix_set_isHeap {q : List ExpireItem} (h : IsHeap q) (i : Nat)
    (hi : i < q.length) (x : ExpireItem) : IsHeap (heapFix (q.set i x) i) := by
  have hlen : (q.set i x).length = q.length := by simp
  have hget_ne : ∀ k, k ≠ i → qget (q.set i x) k = qget q k := by
    intro k hk
    simp [qget, List.getElem?_set_ne (Ne.symm hk)]
  have hinv : DownInv (q.set i x) q.length i i := by
    refine ⟨?_, ?_, ?_⟩
    · intro a c hc hcn hai hci
      rw [hget_ne a hai, hget_ne c hci]
      exact heap_edge h hc hcn
    · intro c hc hcn h1i
      have hpar : (i-1)/2 ≠ i := by omega
      have hcne : c ≠ i := by rcases hc with h'|h' <;> omega
      rw [hget_ne _ hpar, hget_ne c hcne]
      exact le_trans
        (heap_edge h
          (show isChildIdx ((i-1)/2) i by unfold isChildIdx; omega) hi)
        (heap_edge h hc hcn)
    · intro hne _
      exact absurd rfl hne
  have htop := downF_correct_top q.length (q.set i x) q.length i
    (by omega) (by omega) hinv
  unfold heapFix heapDown
  simp only []
  rw [hlen]
  by_cases hmove : i < (heapDownF q.length (q.set i x) i q.length).2
  · rw [if_pos hmove]
    exact IsHeap.of_heapN (htop.1 hmove) (by rw [heapDownF_length]; simp)
  · rw [if_neg hmove]
    have hge := heapDownF_snd_ge q.length (q.set i x) i q.length
    have heq : (heapDownF q.length (q.set i x) i q.length).2 = i := by omega
    obtain ⟨hq1, hpart, hchild⟩ := htop.2 heq
    rw [hq1]
    unfold heapUp
    have hupinv : UpInv (q.set i x) q.length i := by
      constructor
      · intro a c hc hcn hci
        by_cases hai : a = i
        · subst hai
          exact hchild c hc hcn
        · exact hpart a c hc hcn hci
      · intro c hc hcn h1i
        have hpar : (i-1)/2 ≠ i := by omega
        have hcne : c ≠ i := by rcases hc with h'|h' <;> omega
        rw [hget_ne _ hpar, hget_ne c hcne]
        exact le_trans
          (heap_edge h
            (show isChildIdx ((i-1)/2) i by unfold isChildIdx; omega) hi)
          (heap_edge h hc hcn)
    exact IsHeap.of_heapN
      (upF_correct i (q.set i x) q.length i (le_refl _) (by simp) hi hupinv)
      (by rw [heapUpF_length]; simp)

/-- Whether some queue record with key `k` has expired strictly before `now`
(the keys whose map entries `CleanUp` deletes). -/
def hasExpiredKey (q : List ExpireItem) (now : Int) (k : String) : Bool :=
  q.any fun it => it.key == k && decide (it.exp < now)

theorem cleanUpF_spec {V : Type} (f : Nat) (d : String → Option V)
    (q : List ExpireItem) (now : Int) (hf : q.length ≤ f) (h : IsHeap q) :
    (∀ y : ExpireItem, (cleanUpF f d q now).2.count y
        = if y.exp < now then 0 else q.count y) ∧
    (∀ k, (cleanUpF f d q now).1 k
        = if hasExpiredKey q now k then none else d k) ∧
    IsHeap (cleanUpF f d q now).2 := by
  induction f generalizing d q with
  | zero =>
    have hq : q = [] := List.length_eq_zero.mp (by omega)
    subst hq
    exact ⟨fun y => by simp [cleanUpF],
      fun k => by simp [cleanUpF, hasExpiredKey], h⟩
  | succ f ih =>
    by_cases h0 : q.length = 0
    · have hq : q = [] := List.length_eq_zero.mp h0
      subst hq
      exact ⟨fun y => by simp [cleanUpF],
        fun k => by simp [cleanUpF, hasExpiredKey],
        by simpa [cleanUpF] using h⟩
    · have hroot := heapPop_root q h0
      have hcnt := heapPop_count q h0
      have hlen := heapPop_length q h0
      have hheap' := heapPop_isHeap h
      have hmin := heapN_root_min h
      have hmem : ∀ y : ExpireItem, y ∈ q ↔ y ∈ (heapPop q).1 ∨ y = qget q 0 := by
        intro y
        constructor
        · intro hy
          by_cases hy0 : y = qget q 0
          · exact Or.inr hy0
          · left
            have hc := hcnt y
            rw [if_neg (fun h' => hy0 h'.symm)] at hc
            have hpos := List.count_pos_iff.mpr hy
            exact List.count_pos_iff.mp (by omega)
        · intro hy
          rcases hy with hy | hy
          · have hc := hcnt y
            have hpos := List.count_pos_iff.mpr hy
            apply List.count_pos_iff.mp
            omega
          · subst hy
            have hc := hcnt (qget q 0)
            rw [if_pos rfl] at hc
            apply List.count_pos_iff.mp
            omega
      have hek : ∀ k, hasExpiredKey q now k = true ↔
          (hasExpiredKey (heapPop q).1 now k = true ∨
            ((qget q 0).key = k ∧ (qget q 0).exp < now)) := by
        intro k
        simp only [hasExpiredKey, List.any_eq_true, Bool.and_eq_true,
          beq_iff_eq, decide_eq_true_eq]
        constructor
        · rintro ⟨y, hy, hcond⟩
          rcases (hmem y).mp hy with h' | h'
          · exact Or.inl ⟨y, h', hcond⟩
          · subst h'
            exact Or.inr hcond
        · rintro (⟨y, hy, hcond⟩ | ⟨h1, h2⟩)
          · exact ⟨y, (hmem y).mpr (Or.inl hy), hcond⟩
          · exact ⟨qget q 0, (hmem _).mpr (Or.inr rfl), h1, h2⟩
      simp only [cleanUpF, if_neg h0]
      rw [hroot]
      simp only []
      by_cases hexp : (qget q 0).exp < now
      · rw [if_pos hexp]
        have ihq := ih (mapDel d (qget q 0).key) (heapPop q).1
          (by omega) hheap'
        refine ⟨?_, ?_, ihq.2.2⟩
        · intro y
          rw [ihq.1 y]
          by_cases hy : y.exp < now
          · simp [hy]
          · rw [if_neg hy, if_neg hy]
            have hne : ¬ (qget q 0 = y) := fun he => hy (he ▸ hexp)
            have hc := hcnt y
            rw [if_neg hne] at hc
            omega
        · intro k
          rw [ihq.2.1 k]
          by_cases h1 : hasExpiredKey (heapPop q).1 now k = true
          · rw [if_pos h1, if_pos ((hek k).mpr (Or.inl h1))]
          · rw [if_neg h1]
            unfold mapDel
            by_cases h2 : k = (qget q 0).key
            · rw [if_pos h2, if_pos ((hek k).mpr (Or.inr ⟨h2.symm, hexp⟩))]
            · rw [if_neg h2, if_neg (fun hq =>
                by rcases (hek k).mp hq with h'|h'
                   · exact h1 h'
                   · exact h2 h'.1.symm)]
      · rw [if_neg hexp]
        have hallexp : ∀ y : ExpireItem, y ∈ q → ¬ y.exp < now := by
          intro y hy hlt
          obtain ⟨j, hj, hjy⟩ := List.mem_iff_getElem.mp hy
          have hroot_le := hmin j hj
          rw [qget_eq_getElem q j hj, hjy] at hroot_le
          omega
        refine ⟨?_, ?_, heapPush_isHeap _ hheap'⟩
        · intro y
          rw [heapPush_count, hcnt y]
          by_cases hy : y.exp < now
          · rw [if_pos hy]
            exact List.count_eq_zero.mpr (fun hmem' => hallexp y hmem' hy)
          · rw [if_neg hy]
        · intro k
          have hfalse : ¬ hasExpiredKey q now k = true := by
            intro hq
            simp only [hasExpiredKey, List.any_eq_true, Bool.and_eq_true,
              beq_iff_eq, decide_eq_true_eq] at hq
            obtain ⟨y, hy, _, hylt⟩ := hq
            exact hallexp y hy hylt
          rw [if_neg hfalse]

theorem findAux_none (q : List ExpireItem) (k : String) (l : List Nat)
    (acc : Option Nat)
    (h : l.foldl (fun acc i => if (qget q i).key = k then some i else acc) acc
      = none) :
    acc = none ∧ ∀ i ∈ l, (qget q i).key ≠ k := by
  induction l generalizing acc with
  | nil => exact ⟨h, by simp⟩
  | cons hd tl ih =>
    simp only [List.foldl_cons] at h
    obtain ⟨h1, h2⟩ := ih _ h
    constructor
    · by_cases hk : (qget q hd).key = k
      · rw [if_pos hk] at h1
        exact absurd h1 (by simp)
      · rwa [if_neg hk] at h1
    · intro i hi
      rcases List.mem_cons.mp hi with h'|h'
      · subst h'
        intro hk
        rw [if_pos hk] at h1
        exact absurd h1 (by simp)
      · exact h2 i h'

theorem findAux_some (q : List ExpireItem) (k : String) (l : List Nat)
    (acc : Option Nat) (i : Nat)
    (h : l.foldl (fun acc j => if (qget q j).key = k then some j else acc) acc
      = some i) :
    (i ∈ l ∧ (qget q i).key = k) ∨ acc = some i := by
  induction l generalizing acc with
  | nil => exact Or.inr h
  | cons hd tl ih =>
    simp only [List.foldl_cons] at h
    rcases ih _ h with h'|h'
    · exact Or.inl ⟨List.mem_cons_of_mem _ h'.1, h'.2⟩
    · by_cases hk : (qget q hd).key = k
      · rw [if_pos hk] at h'
        have heq : hd = i := Option.some.inj h'
        subst heq
        exact Or.inl ⟨List.mem_cons_self _ _, hk⟩
      · rw [if_neg hk] at h'
        exact Or.inr h'

theorem findLastIndex_none (q : List ExpireItem) (k : String)
    (h : findLastIndex q k = none) : ∀ it ∈ q, it.key ≠ k := by
  intro it hit hkey
  obtain ⟨j, hj, hjit⟩ := List.mem_iff_getElem.mp hit
  have hcontra := (findAux_none q k _ _ h).2 j (List.mem_range.mpr hj)
  rw [qget_eq_getElem q j hj, hjit] at hcontra
  exact hcontra hkey

theorem findLastIndex_some (q : List ExpireItem) (k : String) (i : Nat)
    (h : findLastIndex q k = some i) : i < q.length ∧ (qget q i).key = k := by
  rcases findAux_some q k _ _ _ h with h'|h'
  · exact ⟨List.mem_range.mp h'.1, h'.2⟩
  · exact absurd h' (by simp)

/-- The keys of the queue records, in queue order. -/
def qkeys (q : List ExpireItem) : List String := q.map ExpireItem.key

theorem nodup_key_unique {q : List ExpireItem} (hnd : (qkeys q).Nodup)
    {i j : Nat} (hi : i < q.length) (hj : j < q.length)
    (hk : (qget q i).key = (qget q j).key) : i = j := by
  have hp := List.pairwise_iff_getElem.mp hnd
  rw [qget_eq_getElem q i hi, qget_eq_getElem q j hj] at hk
  by_contra hne
  rcases Nat.lt_or_ge i j with h'|h'
  · have hne' := hp i j (by simpa [qkeys]) (by simpa [qkeys]) h'
    apply hne'
    simp only [qkeys, List.getElem_map]
    exact hk
  · have hji : j < i := by omega
    have hne' := hp j i (by simpa [qkeys]) (by simpa [qkeys]) hji
    apply hne'
    simp only [qkeys, List.getElem_map]
    exact hk.symm

theorem updateKeyExp_length (q : List ExpireItem) (k : String) (t : Int) :
    (updateKeyExp q k t).length = q.length := by
  simp [updateKeyExp]

theorem qkeys_updateKeyExp (q : List ExpireItem) (k : String) (t : Int) :
    qkeys (updateKeyExp q k t) = qkeys q := by
  unfold qkeys updateKeyExp
  rw [List.map_map]
  apply List.map_congr_left
  intro it _
  by_cases h : it.key = k <;> simp [h]

theorem updateKeyExp_eq_set {q : List ExpireItem} (hnd : (qkeys q).Nodup)
    {k : String} {i : Nat} (hfind : findLastIndex q k = some i) (t : Int) :
    updateKeyExp q k t = q.set i ⟨k, t⟩ := by
  obtain ⟨hi, hkey⟩ := findLastIndex_some q k i hfind
  rw [qget_eq_getElem q i hi] at hkey
  apply List.ext_getElem
  · simp [updateKeyExp]
  · intro j hj1 hj2
    have hj : j < q.length := by simpa [updateKeyExp] using hj1
    simp only [updateKeyExp, List.getElem_map, List.getElem_set]
    by_cases hij : i = j
    · subst hij
      rw [if_pos hkey, if_pos rfl, hkey]
    · have hne2 : ¬ ((q[j]).key = k) := by
        intro hk
        apply hij
        apply nodup_key_unique hnd hi hj
        rw [qget_eq_getElem q i hi, qget_eq_getElem q j hj, hkey, hk]
      rw [if_neg hne2, if_neg hij]

theorem subperm_map {α β : Type} (f : α → β) {l₁ l₂ : List α}
    (h : l₁.Subperm l₂) : (l₁.map f).Subperm (l₂.map f) := by
  obtain ⟨l, hperm, hsub⟩ := h
  exact ⟨l.map f, hperm.map f, hsub.map f⟩

theorem qkeys_nodup_of_count_le {q1 q2 : List ExpireItem}
    (hc : ∀ y, q2.count y ≤ q1.count y) (h : (qkeys q1).Nodup) :
    (qkeys q2).Nodup := by
  have hsub : q2.Subperm q1 := List.subperm_ext_iff.mpr (fun y _ => hc y)
  obtain ⟨l, hp, hs⟩ := subperm_map ExpireItem.key hsub
  exact hp.nodup_iff.mp (hs.nodup h)

theorem qkeys_nodup_of_perm {q1 q2 : List ExpireItem} (hp : q1.Perm q2)
    (h : (qkeys q1).Nodup) : (qkeys q2).Nodup :=
  ((hp.map ExpireItem.key).nodup_iff).mp h

/-- The queue invariant maintained by every store operation: the heap
property, and no two records sharing a key. -/
def WFq (q : List ExpireItem) : Prop := IsHeap q ∧ (qkeys q).Nodup

theorem heapPush_perm_cons (q : List ExpireItem) (x : ExpireItem) :
    (heapPush q x).Perm (x :: q) := by
  apply List.perm_iff_count.mpr
  intro y
  rw [heapPush_count, List.count_cons]
  by_cases hxy : x = y <;> simp [hxy]

theorem putTTL_wf {V : Type} (s : Skhron V) (k : String) (v : V)
    (ttl now : Int) (h : WFq s.ttlq) : WFq (s.putTTL k v ttl now).ttlq := by
  unfold Skhron.putTTL
  cases hfind : findLastIndex s.ttlq k with
  | none =>
    simp only []
    refine ⟨heapPush_isHeap _ h.1, ?_⟩
    apply qkeys_nodup_of_perm (heapPush_perm_cons s.ttlq ⟨k, now+ttl⟩).symm
    simp only [qkeys, List.map_cons]
    rw [List.nodup_cons]
    refine ⟨?_, h.2⟩
    intro hmem
    obtain ⟨it, hit, hkeq⟩ := List.mem_map.mp hmem
    exact findLastIndex_none s.ttlq k hfind it hit hkeq
  | some i =>
    simp only []
    obtain ⟨hi, hkey⟩ := findLastIndex_some _ _ _ hfind
    rw [updateKeyExp_eq_set h.2 hfind]
    refine ⟨heapFix_set_isHeap h.1 i hi _, ?_⟩
    have hperm : (heapFix (s.ttlq.set i ⟨k, now+ttl⟩) i).Perm
        (s.ttlq.set i ⟨k, now+ttl⟩) :=
      List.perm_iff_count.mpr
        (fun y => heapFix_count _ i (by simpa using hi) y)
    have hkeq2 : qkeys (s.ttlq.set i ⟨k, now+ttl⟩) = qkeys s.ttlq := by
      rw [← updateKeyExp_eq_set h.2 hfind, qkeys_updateKeyExp]
    apply qkeys_nodup_of_perm hperm.symm
    rw [hkeq2]
    exact h.2

theorem cleanUp_wf {V : Type} (s : Skhron V) (now : Int) (h : WFq s.ttlq) :
    WFq (s.cleanUp now).ttlq := by
  unfold Skhron.cleanUp
  simp only []
  have hspec := cleanUpF_spec s.ttlq.length s.data s.ttlq now (le_refl _) h.1
  refine ⟨hspec.2.2, ?_⟩
  apply qkeys_nodup_of_count_le _ h.2
  intro y
  rw [hspec.1 y]
  split
  · exact Nat.zero_le _
  · exact Nat.le_refl _

/-- The store mutations quantified over by the queue-invariant claims. -/
inductive StoreOp (V : Type) where
  | put (k : String) (v : V)
  | putTTL (k : String) (v : V) (ttl now : Int)
  | cleanUp (now : Int)

/-- Apply one operation to the store. -/
def applyOp {V : Type} (s : Skhron V) : StoreOp V → Skhron V
  | .put k v => s.put k v
  | .putTTL k v ttl now => s.putTTL k v ttl now
  | .cleanUp now => s.cleanUp now

/-- Run a sequence of operations from a fresh store. -/
def runOps {V : Type} (ops : List (StoreOp V)) : Skhron V :=
  ops.foldl applyOp (Skhron.new V)

theorem heapInit_nil : heapInit [] = [] := rfl

theorem wf_new (V : Type) : WFq (Skhron.new V).ttlq := by
  show WFq (heapInit [])
  rw [heapInit_nil]
  exact ⟨fun j hj h1 => absurd hj (by simp), by simp [qkeys]⟩

theorem applyOp_wf {V : Type} (s : Skhron V) (op : StoreOp V)
    (h : WFq s.ttlq) : WFq (applyOp s op).ttlq := by
  cases op with
  | put k v => exact h
  | putTTL k v ttl now => exact putTTL_wf s k v ttl now h
  | cleanUp now => exact cleanUp_wf s now h

theorem foldl_applyOp_wf {V : Type} (l : List (StoreOp V)) (s : Skhron V)
    (h : WFq s.ttlq) : WFq (l.foldl applyOp s).ttlq := by
  induction l generalizing s with
  | nil => exact h
  | cons hd tl ih => exact ih _ (applyOp_wf s hd h)

theorem runOps_wf {V : Type} (ops : List (StoreOp V)) :
    WFq (runOps ops).ttlq :=
  foldl_applyOp_wf ops _ (wf_new V)

theorem cleanUpF_outside_key {V : Type} (f : Nat) (d : String → Option V)
    (q : List ExpireItem) (now : Int) (k : String) (hf : q.length ≤ f)
    (hk : ∀ it ∈ q, it.key ≠ k) :
    (cleanUpF f d q now).1 k = d k ∧
    (∀ it ∈ (cleanUpF f d q now).2, it.key ≠ k) := by
  induction f generalizing d q with
  | zero =>
    have hq : q = [] := List.length_eq_zero.mp (by omega)
    subst hq
    exact ⟨rfl, by simp [cleanUpF]⟩
  | succ f ih =>
    by_cases h0 : q.length = 0
    · have hq : q = [] := List.length_eq_zero.mp h0
      subst hq
      exact ⟨by simp [cleanUpF], by simp [cleanUpF]⟩
    · have hroot := heapPop_root q h0
      have hcnt := heapPop_count q h0
      have hlen := heapPop_length q h0
      have hrootmem : qget q 0 ∈ q := by
        have hc := hcnt (qget q 0)
        rw [if_pos rfl] at hc
        apply List.count_pos_iff.mp
        omega
      have hmem' : ∀ y ∈ (heapPop q).1, y ∈ q := by
        intro y hy
        have hc := hcnt y
        have hpos := List.count_pos_iff.mpr hy
        apply List.count_pos_iff.mp
        omega
      simp only [cleanUpF, if_neg h0]
      rw [hroot]
      simp only []
      by_cases hexp : (qget q 0).exp < now
      · rw [if_pos hexp]
        have ihq := ih (mapDel d (qget q 0).key) (heapPop q).1 (by omega)
          (fun it hit => hk it (hmem' it hit))
        refine ⟨?_, ihq.2⟩
        rw [ihq.1]
        unfold mapDel
        rw [if_neg (fun he => hk _ hrootmem he.symm)]
      · rw [if_neg hexp]
        refine ⟨rfl, ?_⟩
        intro it hit
        have hc := heapPush_count (heapPop q).1 (qget q 0) it
        have hpos := List.count_pos_iff.mpr hit
        rw [hc] at hpos
        by_cases he : qget q 0 = it
        · rw [← he]
          exact hk _ hrootmem
        · rw [if_neg he] at hpos
          exact hk it (hmem' it (List.count_pos_iff.mp (by omega)))

theorem putTTL_data_self {V : Type} (s : Skhron V) (k : String) (v : V)
    (ttl now : Int) : (s.putTTL k v ttl now).data k = some v := by
  unfold Skhron.putTTL
  cases findLastIndex s.ttlq k <;> simp [mapSet]

theorem putTTL_key_record {V : Type} (s : Skhron V) (k : String) (v : V)
    (ttl now : Int) (h : WFq s.ttlq) :
    (qkeys (s.putTTL k v ttl now).ttlq).count k = 1 ∧
    (∀ it ∈ (s.putTTL k v ttl now).ttlq, it.key = k → it.exp = now + ttl) := by
  unfold Skhron.putTTL
  cases hfind : findLastIndex s.ttlq k with
  | none =>
    simp only []
    have hperm := heapPush_perm_cons s.ttlq ⟨k, now+ttl⟩
    have hkperm := hperm.map ExpireItem.key
    constructor
    · rw [show qkeys (heapPush s.ttlq ⟨k, now+ttl⟩)
          = (heapPush s.ttlq ⟨k, now+ttl⟩).map ExpireItem.key from rfl,
        hkperm.count_eq]
      simp only [List.map_cons, List.count_cons]
      have hzero : (s.ttlq.map ExpireItem.key).count k = 0 := by
        apply List.count_eq_zero.mpr
        intro hmem
        obtain ⟨it, hit, hkeq⟩ := List.mem_map.mp hmem
        exact findLastIndex_none s.ttlq k hfind it hit hkeq
      rw [hzero]
      simp
    · intro it hit hkeq
      have hmem := hperm.mem_iff.mp hit
      rcases List.mem_cons.mp hmem with h'|h'
      · rw [h']
      · exact absurd hkeq (findLastIndex_none s.ttlq k hfind it h')
  | some i =>
    simp only []
    obtain ⟨hi, hkey⟩ := findLastIndex_some _ _ _ hfind
    rw [updateKeyExp_eq_set h.2 hfind]
    have hperm : (heapFix (s.ttlq.set i ⟨k, now+ttl⟩) i).Perm
        (s.ttlq.set i ⟨k, now+ttl⟩) :=
      List.perm_iff_count.mpr
        (fun y => heapFix_count _ i (by simpa using hi) y)
    have hkeq2 : qkeys (s.ttlq.set i ⟨k, now+ttl⟩) = qkeys s.ttlq := by
      rw [← updateKeyExp_eq_set h.2 hfind, qkeys_updateKeyExp]
    constructor
    · rw [show qkeys (heapFix (s.ttlq.set i ⟨k, now+ttl⟩) i)
          = (heapFix (s.ttlq.set i ⟨k, now+ttl⟩) i).map ExpireItem.key
          from rfl,
        (hperm.map ExpireItem.key).count_eq]
      rw [show (s.ttlq.set i ⟨k, now+ttl⟩).map ExpireItem.key
          = qkeys (s.ttlq.set i ⟨k, now+ttl⟩) from rfl, hkeq2]
      have hmemk : k ∈ qkeys s.ttlq := by
        apply List.mem_map.mpr
        refine ⟨qget s.ttlq i, ?_, hkey⟩
        rw [qget_eq_getElem s.ttlq i hi]
        exact List.getElem_mem hi
      have hle := List.nodup_iff_count_le_one.mp h.2 k
      have hge := List.count_pos_iff.mpr hmemk
      omega
    · intro it hit hkeq
      have hmem := hperm.mem_iff.mp hit
      obtain ⟨j, hj, hjit⟩ := List.mem_iff_getElem.mp hmem
      have hjq : j < s.ttlq.length := by simpa using hj
      rw [List.getElem_set] at hjit
      by_cases hij : i = j
      · rw [if_pos hij] at hjit
        rw [← hjit]
      · rw [if_neg hij] at hjit
        exfalso
        apply hij
        apply nodup_key_unique h.2 hi hjq
        rw [qget_eq_getElem s.ttlq i hi] at hkey
        rw [qget_eq_getElem s.ttlq i hi, qget_eq_getElem s.ttlq j hjq, hkey,
          hjit, hkeq]

/-- The decoded snapshot document: the `data` mapping and the saved `ttlq`
record sequence (in the order they appear in the document). -/
structure Snapshot (V : Type) where
  data : String → Option V
  ttlq : List ExpireItem

/-- The loop of `Skhron.LoadSnapshot`, fueled: pop the decoded queue from the
back (the slice `expireQueue.Pop`), set the map entry for the popped key (a
Go map read yields the zero value — here `default` — when the key is absent
from the decoded `data`), and append the record to the new queue (the slice
`expireQueue.Push`). Fuel `≥` the decoded queue length runs it to
completion. -/
def loadLoopF {V : Type} [Inhabited V] (snapData : String → Option V) :
    Nat → List ExpireItem → (String → Option V) → List ExpireItem →
    (String → Option V) × List ExpireItem
  | 0, _, d, q => (d, q)
  | f+1, rsq, d, q =>
    match rsq.getLast? with
    | none => (d, q)
    | some it =>
      loadLoopF snapData f rsq.dropLast
        (mapSet d it.key ((snapData it.key).getD default)) (q ++ [it])

/-- `Skhron.LoadSnapshot`, success path (the file was opened and decoded into
`snap`): install a fresh map and a fresh `heap.Init`-ed queue, then run the
reconstruction loop. The old store contents (`s`) are discarded; the Go code
reads only the shrink limit from them, which is not modelled. -/
def Skhron.loadSnapshot {V : Type} [Inhabited V] (s : Skhron V)
    (snap : Snapshot V) : Skhron V :=
  let r := loadLoopF snap.data snap.ttlq.length snap.ttlq
    (fun _ => none) (heapInit [])
  ⟨r.1, r.2⟩

theorem loadLoopF_spec {V : Type} [Inhabited V] (f : Nat)
    (snapData : String → Option V) (rsq : List ExpireItem)
    (d : String → Option V) (q : List ExpireItem) (hf : rsq.length ≤ f) :
    (loadLoopF snapData f rsq d q).2 = q ++ rsq.reverse ∧
    (∀ k, (loadLoopF snapData f rsq d q).1 k
      = if rsq.any (fun it => it.key == k)
        then some ((snapData k).getD default) else d k) := by
  induction f generalizing rsq d q with
  | zero =>
    have hq : rsq = [] := List.length_eq_zero.mp (by omega)
    subst hq
    exact ⟨by simp [loadLoopF], fun k => by simp [loadLoopF]⟩
  | succ f ih =>
    by_cases h0 : rsq = []
    · subst h0
      exact ⟨by simp [loadLoopF], fun k => by simp [loadLoopF]⟩
    · have hlast := List.getLast?_eq_getLast rsq h0
      have hsplit := List.dropLast_concat_getLast h0
      simp only [loadLoopF, hlast]
      have hlen : rsq.dropLast.length ≤ f := by
        rw [List.length_dropLast]
        have : rsq.length ≠ 0 := fun hc => h0 (List.length_eq_zero.mp hc)
        omega
      obtain ⟨ihq, ihd⟩ := ih rsq.dropLast
        (mapSet d (rsq.getLast h0).key
          ((snapData (rsq.getLast h0).key).getD default)) (q ++ [rsq.getLast h0])
        hlen
      constructor
      · rw [ihq, List.append_assoc]
        conv_rhs => rw [← hsplit]
        rw [List.reverse_concat]
        rfl
      · intro k
        rw [ihd k]
        have hany : rsq.any (fun it => it.key == k)
            = (rsq.dropLast.any (fun it => it.key == k)
              || ((rsq.getLast h0).key == k)) := by
          conv_lhs => rw [← hsplit]
          rw [List.any_append]
          simp
        rw [hany]
        by_cases h1 : rsq.dropLast.any (fun it => it.key == k) = true
        · simp only [h1, Bool.true_or, if_pos]
        · simp only [h1, Bool.false_or]
          rw [if_neg (by simpa using h1)]
          unfold mapSet
          by_cases h2 : k = (rsq.getLast h0).key
          · subst h2
            simp
          · simp [h2, Ne.symm h2]

/-- Outcomes of the filesystem (and marshalling) calls `CreateSnapshot`
performs, in program order; each field is `true` when the corresponding call
succeeds (`statOldExists` is `true` when `os.Stat` finds an old snapshot at
the canonical path). -/
structure FsOutcome where
  marshalOk : Bool
  mkdirTempOk : Bool
  createTempOk : Bool
  writeOk : Bool
  mkdirSnapOk : Bool
  statOldExists : Bool
  renameOldOk : Bool
  renameFinalOk : Bool

/-- The failure points from which `CreateSnapshot` returns an error. The
rename-aside of the old snapshot is deliberately absent: its failure is only
logged. -/
inductive SnapErr where
  | marshal
  | mkdirTemp
  | createTemp
  | write
  | mkdirSnap
  | renameFinal
deriving DecidableEq, Repr

/-- Control-flow model of `Skhron.CreateSnapshot` over the call outcomes:
marshal to JSON, create the temp directory, create and write the temp file,
create the snapshot directory, rename any existing snapshot aside (failure
logged, not returned), then rename the temp file onto the canonical path
(failure returned). Returns the result and the log lines emitted. -/
def createSnapshot (fs : FsOutcome) : Except SnapErr Unit × List String :=
  if ¬ fs.marshalOk then (.error .marshal, [])
  else if ¬ fs.mkdirTempOk then (.error .mkdirTemp, [])
  else if ¬ fs.createTempOk then (.error .createTemp, [])
  else if ¬ fs.writeOk then (.error .write, [])
  else if ¬ fs.mkdirSnapOk then (.error .mkdirSnap, [])
  else
    let log := if fs.statOldExists ∧ ¬ fs.renameOldOk
      then ["failed to move old snapshot"] else []
    if ¬ fs.renameFinalOk then (.error .renameFinal, log)
    else (.ok (), log)

/-- Events the `PeriodicCleanup` select loop can observe: a period tick
(`time.After`) or the cancellation signal (`ctx.Done()`), each at some clock
value. -/
inductive SchedEvent where
  | tick (now : Int)
  | cancel (now : Int)

/-- Observable actions of the scheduler, in order: a `CleanUp` pass, the
shutdown `CreateSnapshot` attempt (with its outcome), the log line written
when that attempt fails, and the completion signal on the `done` channel. -/
inductive SchedAction where
  | cleanup (now : Int)
  | snapshot (ok : Bool)
  | logSnapshotFailure
  | signalDone
deriving DecidableEq, Repr

/-- `Skhron.PeriodicCleanup` over an explicit event schedule: each tick runs
`CleanUp`; on cancellation it runs `CleanUp` once more, attempts
`CreateSnapshot` (outcome `snapOk`; on failure the error is logged, not
propagated), breaks the loop, and signals on `done`. If the schedule ends
without a cancellation the loop is still running and nothing further is
emitted. Returns the final store and the trace of actions. -/
def periodicCleanup {V : Type} (s : Skhron V) (snapOk : Bool) :
    List SchedEvent → Skhron V × List SchedAction
  | [] => (s, [])
  | .tick now :: rest =>
    let r := periodicCleanup (s.cleanUp now) snapOk rest
    (r.1, .cleanup now :: r.2)
  | .cancel now :: _ =>
    (s.cleanUp now,
      .cleanup now :: .snapshot snapOk ::
        ((if snapOk then [] else [.logSnapshotFailure]) ++ [.signalDone]))

instance (q : List ExpireItem) : Decidable (WFq q) :=
  inferInstanceAs (Decidable (IsHeap q ∧ (qkeys q).Nodup))

/-- C1: for every store whose queue satisfies the heap invariant and every
clock value `now`, `CleanUp` removes from the queue exactly the records whose
expiration is strictly before `now` (records with a later expiration are
never removed and keep their multiplicity), and deletes exactly the map
entries of the keys carried by those expired records (a no-op when such a key
is already absent), leaving every other map entry unchanged. This is the
extensional content of the pop-min/delete/push-back-and-stop loop. -/
theorem c1_cleanUp_removes_exactly_expired {V : Type} (s : Skhron V)
    (now : Int) (hheap : IsHeap s.ttlq) :
    (∀ y : ExpireItem, (s.cleanUp now).ttlq.count y
        = if y.exp < now then 0 else s.ttlq.count y) ∧
    (∀ k : String, (s.cleanUp now).data k
        = if hasExpiredKey s.ttlq now k then none else s.data k) := by
  have hspec := cleanUpF_spec s.ttlq.length s.data s.ttlq now (le_refl _) hheap
  exact ⟨hspec.1, hspec.2.1⟩

/-- Witness for C1 at a concrete store and clock. -/
theorem c1_witness :
    IsHeap [(⟨"a", 3⟩ : ExpireItem), ⟨"b", 7⟩] ∧
    ((∀ y : ExpireItem,
        ((⟨(fun k => if k = "a" then some 1 else if k = "b" then some 2
            else none), [⟨"a", 3⟩, ⟨"b", 7⟩]⟩ : Skhron Int).cleanUp 5).ttlq.count y
          = if y.exp < 5 then 0
            else ([(⟨"a", 3⟩ : ExpireItem), ⟨"b", 7⟩] : List ExpireItem).count y) ∧
     (∀ k : String,
        ((⟨(fun k => if k = "a" then some 1 else if k = "b" then some 2
            else none), [⟨"a", 3⟩, ⟨"b", 7⟩]⟩ : Skhron Int).cleanUp 5).data k
          = if hasExpiredKey [⟨"a", 3⟩, ⟨"b", 7⟩] 5 k then none
            else (fun k => if k = "a" then some 1 else if k = "b" then some 2
              else none : String → Option Int) k)) :=
  ⟨by decide,
    c1_cleanUp_removes_exactly_expired
      ⟨(fun k => if k = "a" then some 1 else if k = "b" then some 2 else none),
        [⟨"a", 3⟩, ⟨"b", 7⟩]⟩ 5 (by decide)⟩

/-- C2: after any sequence of `Put`, `PutTTL` and `CleanUp` operations
starting from a fresh store, the expiry queue satisfies the heap property:
the record at index 0 has an expiration time less than or equal to that of
every record in the queue. -/
theorem c2_heap_invariant {V : Type} (ops : List (StoreOp V)) (j : Nat)
    (hj : j < (runOps ops).ttlq.length) :
    (qget (runOps ops).ttlq 0).exp ≤ (qget (runOps ops).ttlq j).exp :=
  heapN_root_min (runOps_wf ops).1 j hj

/-- Witness for C2 at a concrete operation sequence. -/
theorem c2_witness :
    1 < (runOps [StoreOp.putTTL "a" (1 : Int) 5 0, StoreOp.putTTL "b" 2 3 0,
        StoreOp.put "c" 9, StoreOp.cleanUp 2]).ttlq.length ∧
    (qget (runOps [StoreOp.putTTL "a" (1 : Int) 5 0, StoreOp.putTTL "b" 2 3 0,
        StoreOp.put "c" 9, StoreOp.cleanUp 2]).ttlq 0).exp
      ≤ (qget (runOps [StoreOp.putTTL "a" (1 : Int) 5 0,
          StoreOp.putTTL "b" 2 3 0, StoreOp.put "c" 9,
          StoreOp.cleanUp 2]).ttlq 1).exp :=
  ⟨by decide, c2_heap_invariant _ 1 (by decide)⟩

/-- C3: starting from any store satisfying the queue invariant, after
`PutTTL k v₁ ttl₁` followed by `PutTTL k v₂ ttl₂` the queue holds exactly one
record for `k`, that record's expiration is `now₂ + ttl₂` (the record is
updated in place and the heap re-fixed, not appended a second time), the heap
property still holds, and `Get k` returns `v₂`. -/
theorem c3_putTTL_overwrite {V : Type} (s : Skhron V) (k : String)
    (v₁ v₂ : V) (ttl₁ ttl₂ now₁ now₂ : Int) (h : WFq s.ttlq) :
    (qkeys ((s.putTTL k v₁ ttl₁ now₁).putTTL k v₂ ttl₂ now₂).ttlq).count k = 1 ∧
    (∀ it ∈ ((s.putTTL k v₁ ttl₁ now₁).putTTL k v₂ ttl₂ now₂).ttlq,
      it.key = k → it.exp = now₂ + ttl₂) ∧
    ((s.putTTL k v₁ ttl₁ now₁).putTTL k v₂ ttl₂ now₂).get k = .ok v₂ ∧
    IsHeap ((s.putTTL k v₁ ttl₁ now₁).putTTL k v₂ ttl₂ now₂).ttlq := by
  have h₁ : WFq (s.putTTL k v₁ ttl₁ now₁).ttlq := putTTL_wf s k v₁ ttl₁ now₁ h
  have hrec := putTTL_key_record (s.putTTL k v₁ ttl₁ now₁) k v₂ ttl₂ now₂ h₁
  have h₂ : WFq ((s.putTTL k v₁ ttl₁ now₁).putTTL k v₂ ttl₂ now₂).ttlq :=
    putTTL_wf _ k v₂ ttl₂ now₂ h₁
  refine ⟨hrec.1, hrec.2, ?_, h₂.1⟩
  unfold Skhron.get
  rw [putTTL_data_self]

/-- Witness for C3 at a concrete store and arguments. -/
theorem c3_witness :
    WFq (Skhron.new Int).ttlq ∧
    ((qkeys (((Skhron.new Int).putTTL "a" 1 10 0).putTTL "a" 2 20 1).ttlq).count
        "a" = 1 ∧
     (∀ it ∈ (((Skhron.new Int).putTTL "a" 1 10 0).putTTL "a" 2 20 1).ttlq,
        it.key = "a" → it.exp = 1 + 20) ∧
     (((Skhron.new Int).putTTL "a" 1 10 0).putTTL "a" 2 20 1).get "a"
        = .ok 2 ∧
     IsHeap (((Skhron.new Int).putTTL "a" 1 10 0).putTTL "a" 2 20 1).ttlq) :=
  ⟨by decide, c3_putTTL_overwrite (Skhron.new Int) "a" 1 2 10 20 0 1 (by decide)⟩

/-- C4: `Get` returns the stored value for any key present in the map, with
no condition on (and no inspection of) the expiry queue — an
expired-but-unswept entry is still returned; and its result is identical for
any two queue contents. In the model `Get` produces no state change, matching
the code, which only reads the map under `RLock`. -/
theorem c4_get_ignores_expiry {V : Type} (d : String → Option V)
    (q q' : List ExpireItem) (k : String) (v : V) (h : d k = some v) :
    Skhron.get ⟨d, q⟩ k = .ok v ∧
    Skhron.get ⟨d, q'⟩ k = Skhron.get ⟨d, q⟩ k := by
  constructor
  · unfold Skhron.get
    simp only []
    rw [h]
  · rfl

/-- Witness for C4: the key is returned although its record expired long ago
(queue `[⟨"a", -100⟩]`), and the answer does not depend on the queue. -/
theorem c4_witness :
    ((fun x => if x = "a" then some 1 else none) : String → Option Int) "a"
      = some 1 ∧
    (Skhron.get ⟨(fun x => if x = "a" then some 1 else none),
        [⟨"a", -100⟩]⟩ "a" = .ok 1 ∧
     Skhron.get ⟨(fun x => if x = "a" then some 1 else none), []⟩ "a"
      = Skhron.get ⟨(fun x => if x = "a" then some 1 else none),
          [⟨"a", -100⟩]⟩ "a") :=
  ⟨by decide,
    c4_get_ignores_expiry (fun x => if x = "a" then some 1 else none)
      [⟨"a", -100⟩] [] "a" 1 (by decide)⟩

/-- C5: after a plain `Put k v` on a store whose queue carries no record for
`k` (no `PutTTL` was ever issued for `k`), no sequence of `CleanUp` passes —
at any clock values — ever removes `k`: the value survives them all. `Put`
itself never adds a queue record, and `CleanUp` deletes only keys popped from
the queue. -/
theorem c5_put_never_expires {V : Type} (s : Skhron V) (k : String) (v : V)
    (hk : ∀ it ∈ s.ttlq, it.key ≠ k) (nows : List Int) :
    (nows.foldl (fun st n => st.cleanUp n) (s.put k v)).data k = some v := by
  have haux : ∀ (l : List Int) (st : Skhron V), st.data k = some v →
      (∀ it ∈ st.ttlq, it.key ≠ k) →
      (l.foldl (fun st n => st.cleanUp n) st).data k = some v := by
    intro l
    induction l with
    | nil => exact fun st hd _ => hd
    | cons hd tl ih =>
      intro st hdata hkeys
      have hout := cleanUpF_outside_key st.ttlq.length st.data st.ttlq hd k
        (le_refl _) hkeys
      exact ih (st.cleanUp hd) (by
          show (cleanUpF st.ttlq.length st.data st.ttlq hd).1 k = some v
          rw [hout.1, hdata])
        hout.2
  apply haux nows (s.put k v)
  · show mapSet s.data k v k = some v
    unfold mapSet
    rw [if_pos rfl]
  · exact hk

/-- Witness for C5: a store holding an (expired) record for another key. -/
theorem c5_witness :
    (∀ it ∈ ([⟨"b", -5⟩] : List ExpireItem), it.key ≠ "a") ∧
    (([-1, 3, 100] : List Int).foldl (fun st n => st.cleanUp n)
      ((⟨(fun x => if x = "b" then some 2 else none),
        [⟨"b", -5⟩]⟩ : Skhron Int).put "a" 1)).data "a" = some 1 :=
  ⟨by decide,
    c5_put_never_expires
      ⟨(fun x => if x = "b" then some 2 else none), [⟨"b", -5⟩]⟩
      "a" 1 (by decide) [-1, 3, 100]⟩

/-- C6: `Delete k` always returns a `nil` error, leaves the expiry queue
untouched (any record for `k` stays queued), removes exactly the map entry
for `k` (absence included: the update is expressed without a presence
hypothesis), and a repeated `Delete k` is a no-op on the store. -/
theorem c6_delete_idempotent_frame {V : Type} (s : Skhron V) (k : String) :
    (s.delete k).2 = none ∧
    (s.delete k).1.ttlq = s.ttlq ∧
    (∀ k' : String, (s.delete k).1.data k'
      = if k' = k then none else s.data k') ∧
    ((s.delete k).1.delete k).1 = (s.delete k).1 := by
  refine ⟨rfl, rfl, fun k' => rfl, ?_⟩
  unfold Skhron.delete
  simp only []
  congr 1
  funext x
  unfold mapDel
  by_cases h : x = k <;> simp [h]

/-- The snapshot document used to exhibit the LoadSnapshot heap violation:
its queue `[⟨"a", 0⟩, ⟨"b", 1⟩]` is exactly what `CreateSnapshot` would save
for a two-record heap (it is already in heap order on disk). -/
def c7snap : Snapshot Int :=
  ⟨(fun k => if k = "a" then some 1 else if k = "b" then some 2 else none),
    [⟨"a", 0⟩, ⟨"b", 1⟩]⟩

/-- C7 (refuted — the code diverges from this claim): `LoadSnapshot`'s
reconstruction loop calls the plain slice `Pop`/`Push` methods rather than
`heap.Pop`/`heap.Push`, so the rebuilt queue is the reverse of the saved
order. On the two-record snapshot above (a valid heap as saved), the loaded
queue is `[⟨"b", 1⟩, ⟨"a", 0⟩]`: its root carries expiration 1 while the
other record carries 0, violating the heap invariant the claim asserts — even
though the map is, as claimed, repopulated exactly for the queue's keys. -/
theorem c7_loadSnapshot_heap_violated :
    ((Skhron.new Int).loadSnapshot c7snap).ttlq = [⟨"b", 1⟩, ⟨"a", 0⟩] ∧
    ¬ IsHeap ((Skhron.new Int).loadSnapshot c7snap).ttlq ∧
    ((Skhron.new Int).loadSnapshot c7snap).data "a" = some 1 ∧
    ((Skhron.new Int).loadSnapshot c7snap).data "b" = some 2 ∧
    ((Skhron.new Int).loadSnapshot c7snap).data "c" = none := by
  refine ⟨by decide, by decide, ?_, ?_, ?_⟩ <;> decide

/-- C8: in `CreateSnapshot`, once every step up to the rename-aside has
succeeded and an old snapshot exists, a failed rename-aside only contributes
a log line and never aborts — the overall result is decided solely by the
final rename, whose failure (and only it, at that point) returns an error. -/
theorem c8_createSnapshot_error_flow (rOld rFinal : Bool) :
    createSnapshot ⟨true, true, true, true, true, true, rOld, rFinal⟩
      = ((if rFinal then .ok () else .error .renameFinal),
         (if rOld then [] else ["failed to move old snapshot"])) := by
  cases rOld <;> cases rFinal <;> rfl

/-- C9: on any schedule consisting of period ticks followed by the
cancellation signal, `PeriodicCleanup` emits one `CleanUp` per tick, then —
upon observing cancellation — exactly one more `CleanUp`, then the
`CreateSnapshot` attempt, then (only on failure) the log line, and finally
the completion signal; the completion signal is present whether or not the
snapshot succeeded. -/
theorem c9_periodicCleanup_shutdown {V : Type} (s : Skhron V) (snapOk : Bool)
    (ticks : List Int) (now : Int) :
    (periodicCleanup s snapOk
        (ticks.map SchedEvent.tick ++ [SchedEvent.cancel now])).2
      = ticks.map SchedAction.cleanup ++
        (SchedAction.cleanup now :: SchedAction.snapshot snapOk ::
          ((if snapOk then [] else [SchedAction.logSnapshotFailure])
            ++ [SchedAction.signalDone])) ∧
    SchedAction.signalDone ∈ (periodicCleanup s snapOk
        (ticks.map SchedEvent.tick ++ [SchedEvent.cancel now])).2 := by
  have htr : ∀ (st : Skhron V),
      (periodicCleanup st snapOk
        (ticks.map SchedEvent.tick ++ [SchedEvent.cancel now])).2
      = ticks.map SchedAction.cleanup ++
        (SchedAction.cleanup now :: SchedAction.snapshot snapOk ::
          ((if snapOk then [] else [SchedAction.logSnapshotFailure])
            ++ [SchedAction.signalDone])) := by
    induction ticks with
    | nil => intro st; rfl
    | cons hd tl ih =>
      intro st
      simp only [List.map_cons, List.cons_append, periodicCleanup,
        List.append_eq]
      rw [ih (st.cleanUp hd)]
  refine ⟨htr s, ?_⟩
  rw [htr s]
  cases snapOk <;> simp

/-- C10: a successful `LoadSnapshot` replaces the store's state instead of
merging into it: the result is the same whatever the previous store contents
were (a fresh map and queue are installed first), and any key without a
record in the snapshot's queue is absent afterwards. -/
theorem c10_loadSnapshot_replaces_state {V : Type} [Inhabited V]
    (s₁ s₂ : Skhron V) (snap : Snapshot V) (k : String)
    (hk : ∀ it ∈ snap.ttlq, it.key ≠ k) :
    s₁.loadSnapshot snap = s₂.loadSnapshot snap ∧
    (s₁.loadSnapshot snap).data k = none := by
  refine ⟨rfl, ?_⟩
  have hspec := (loadLoopF_spec snap.ttlq.length snap.data snap.ttlq
    (fun _ => none) (heapInit []) (le_refl _)).2 k
  have hany : snap.ttlq.any (fun it => it.key == k) = false := by
    rw [List.any_eq_false]
    intro it hit
    simp [hk it hit]
  show (loadLoopF snap.data snap.ttlq.length snap.ttlq
    (fun _ => none) (heapInit [])).1 k = none
  rw [hspec, hany]
  simp

/-- Witness for C10: a populated store and a fresh store load the same
snapshot to the same state, and the populated store's old key is gone. -/
theorem c10_witness :
    (∀ it ∈ ([⟨"b", 4⟩] : List ExpireItem), it.key ≠ "old") ∧
    ((⟨(fun x => if x = "old" then some 9 else none),
        [⟨"old", 2⟩]⟩ : Skhron Int).loadSnapshot
        ⟨(fun x => if x = "b" then some 3 else none), [⟨"b", 4⟩]⟩
      = (Skhron.new Int).loadSnapshot
        ⟨(fun x => if x = "b" then some 3 else none), [⟨"b", 4⟩]⟩ ∧
     ((⟨(fun x => if x = "old" then some 9 else none),
        [⟨"old", 2⟩]⟩ : Skhron Int).loadSnapshot
        ⟨(fun x => if x = "b" then some 3 else none), [⟨"b", 4⟩]⟩).data "old"
      = none) :=
  ⟨by decide,
    c10_loadSnapshot_replaces_state
      ⟨(fun x => if x = "old" then some 9 else none), [⟨"old", 2⟩]⟩
      (Skhron.new Int)
      ⟨(fun x => if x = "b" then some 3 else none), [⟨"b", 4⟩]⟩
      "old" (by decide)⟩
